import Mathlib

/-!
Verification of the sqlite-simple-tokenizer FTS5 adapter (src/src/tokenizer/).

Shallow embedding conventions:
* Rust strings are `List Char`; byte buffers (`&[u8]`) are `List Nat`.
* `c_int` is `Int`; machine-width overflow is irrelevant for the values involved.
* External library functions (jieba-rs `Jieba::cut`, `unicode_normalization`'s
  `nfkc`, `char::to_lowercase`, the snowball stemmer, and the crate-level
  `STOPWORD` set which lives outside `src/src/tokenizer/`) are parameters of
  the embedding, bundled in `ExternalFns`.  Theorems either hold for every
  instantiation or state the documented property of the library they need as
  an explicit hypothesis.
* Rust std functions with fixed, documented semantics (`String::from_utf8_lossy`,
  `char::is_whitespace`, `char::is_control`, `char::is_ascii_punctuation`,
  `char::to_ascii_lowercase`, UTF-8 encoding) are modelled concretely below.
-/

/-! ## Status codes and FTS5 flag constants (values from sqlite3 fts5.h via rusqlite::ffi) -/

def SQLITE_OK : Int := 0

def SQLITE_ERROR : Int := 1

def FTS5_TOKENIZE_QUERY : Int := 1

def FTS5_TOKENIZE_DOCUMENT : Int := 4

def FTS5_TOKENIZE_AUX : Int := 8

/-- FTS5_TOKENIZE_QUERY ||| FTS5_TOKENIZE_PREFIX = 1 ||| 2 (mod.rs line 61). -/
def FTS5_TOKENIZE_QUERY_PREFIX : Int := 3

/-- Minimum fts5_api version accepted by registration (mod.rs line 21). -/
def FTS5_API_VERSION : Int := 3

/-! ## UTF-8 byte lengths, encoding, and Rust's `String::from_utf8_lossy`

These model Rust std semantics: `char::len_utf8`, UTF-8 encoding, and lossy
decoding with U+FFFD substitution of maximal subparts. -/

/-- Byte length of a scalar value in UTF-8 (Rust `char::len_utf8`). -/
def utf8CharLen (c : Char) : Nat :=
  if c.toNat < 0x80 then 1
  else if c.toNat < 0x800 then 2
  else if c.toNat < 0x10000 then 3
  else 4

/-- Byte length of a Rust `String` / `str` (`str::len`). -/
def strByteLen : List Char → Nat
  | [] => 0
  | c :: cs => utf8CharLen c + strByteLen cs

/-- UTF-8 encoding of one scalar value. -/
def encodeChar (c : Char) : List Nat :=
  if c.toNat < 0x80 then [c.toNat]
  else if c.toNat < 0x800 then [0xC0 + c.toNat / 64, 0x80 + c.toNat % 64]
  else if c.toNat < 0x10000 then
    [0xE0 + c.toNat / 4096, 0x80 + c.toNat / 64 % 64, 0x80 + c.toNat % 64]
  else
    [0xF0 + c.toNat / 262144, 0x80 + c.toNat / 4096 % 64, 0x80 + c.toNat / 64 % 64,
      0x80 + c.toNat % 64]

/-- UTF-8 encoding of a string (`str::as_bytes`). -/
def utf8Encode : List Char → List Nat
  | [] => []
  | c :: cs => encodeChar c ++ utf8Encode cs

/-- The U+FFFD replacement character. -/
def repChar : Char := Char.ofNat 0xFFFD

/-- Is a byte a UTF-8 continuation byte (0x80..=0xBF)? -/
def contByte (b : Nat) : Bool := 0x80 ≤ b && b ≤ 0xBF

/-- One step of Rust's lossy UTF-8 decoder: given the first byte and the
remaining bytes, return the decoded scalar (U+FFFD for an invalid maximal
subpart) and the total number of bytes consumed (at least 1).  This follows
the "substitution of maximal subparts" policy of `String::from_utf8_lossy`. -/
def lossyStep (b : Nat) (rest : List Nat) : Char × Nat :=
  if b ≤ 0x7F then (Char.ofNat b, 1)
  else if b ≤ 0xC1 then (repChar, 1)
  else if b ≤ 0xDF then
    match rest with
    | b1 :: _ =>
      if contByte b1 then (Char.ofNat ((b - 0xC0) * 64 + (b1 - 0x80)), 2)
      else (repChar, 1)
    | [] => (repChar, 1)
  else if b ≤ 0xEF then
    let lo2 := if b = 0xE0 then 0xA0 else 0x80
    let hi2 := if b = 0xED then 0x9F else 0xBF
    match rest with
    | b1 :: rest1 =>
      if lo2 ≤ b1 && b1 ≤ hi2 then
        match rest1 with
        | b2 :: _ =>
          if contByte b2 then
            (Char.ofNat ((b - 0xE0) * 4096 + (b1 - 0x80) * 64 + (b2 - 0x80)), 3)
          else (repChar, 2)
        | [] => (repChar, 2)
      else (repChar, 1)
    | [] => (repChar, 1)
  else if b ≤ 0xF4 then
    let lo2 := if b = 0xF0 then 0x90 else 0x80
    let hi2 := if b = 0xF4 then 0x8F else 0xBF
    match rest with
    | b1 :: rest1 =>
      if lo2 ≤ b1 && b1 ≤ hi2 then
        match rest1 with
        | b2 :: rest2 =>
          if contByte b2 then
            match rest2 with
            | b3 :: _ =>
              if contByte b3 then
                (Char.ofNat ((b - 0xF0) * 262144 + (b1 - 0x80) * 4096 +
                  (b2 - 0x80) * 64 + (b3 - 0x80)), 4)
              else (repChar, 3)
            | [] => (repChar, 3)
          else (repChar, 2)
        | [] => (repChar, 2)
      else (repChar, 1)
    | [] => (repChar, 1)
  else (repChar, 1)

/-- Fueled decoding loop; fuel bounds the number of decoded scalars, and each
step consumes at least one byte, so `fuel = length of the input` suffices. -/
def lossyGo : Nat → List Nat → List Char
  | 0, _ => []
  | _ + 1, [] => []
  | fuel + 1, b :: rest =>
    (lossyStep b rest).1 :: lossyGo fuel (rest.drop ((lossyStep b rest).2 - 1))

/-- Rust `String::from_utf8_lossy` (jieba_tokenizer.rs line 61). -/
def utf8LossyDecode (bs : List Nat) : List Char := lossyGo bs.length bs

/-! ## Character classification (Rust std semantics)

`char::is_whitespace` is the Unicode White_Space property, `char::is_control`
is the Cc general category, `char::is_ascii_punctuation` the four ASCII
punctuation ranges. -/

/-- Rust `char::is_whitespace` (the 25 Unicode White_Space code points). -/
def rust_is_whitespace (c : Char) : Bool :=
  let v := c.toNat
  decide ((9 ≤ v ∧ v ≤ 13) ∨ v = 32 ∨ v = 0x85 ∨ v = 0xA0 ∨ v = 0x1680 ∨
    (0x2000 ≤ v ∧ v ≤ 0x200A) ∨ v = 0x2028 ∨ v = 0x2029 ∨ v = 0x202F ∨
    v = 0x205F ∨ v = 0x3000)

/-- Rust `char::is_control` (Unicode general category Cc). -/
def rust_is_control (c : Char) : Bool :=
  let v := c.toNat
  decide (v ≤ 0x1F ∨ (0x7F ≤ v ∧ v ≤ 0x9F))

/-- Rust `char::is_ascii_punctuation`. -/
def rust_is_ascii_punctuation (c : Char) : Bool :=
  let v := c.toNat
  decide ((0x21 ≤ v ∧ v ≤ 0x2F) ∨ (0x3A ≤ v ∧ v ≤ 0x40) ∨
    (0x5B ≤ v ∧ v ≤ 0x60) ∨ (0x7B ≤ v ∧ v ≤ 0x7E))

/-- Rust `char::is_ascii` (code point at most 0x7F). -/
def rust_is_ascii (c : Char) : Bool := decide (c.toNat ≤ 0x7F)

/-- Rust `char::to_ascii_lowercase`. -/
def to_ascii_lowercase (c : Char) : Char :=
  if 65 ≤ c.toNat ∧ c.toNat ≤ 90 then Char.ofNat (c.toNat + 32) else c

/-! ## Normalization utilities (utils.rs) -/

/-- utils.rs lines 10-19: the loop with early break; true iff the word consists
only of whitespace, control, or ASCII punctuation characters. -/
def is_space_or_ascii_punctuation_str : List Char → Bool
  | [] => true
  | ch :: rest =>
    if !rust_is_whitespace ch && !rust_is_control ch && !rust_is_ascii_punctuation ch
    then false
    else is_space_or_ascii_punctuation_str rest

/-- utils.rs lines 57-59: combining diacritical marks U+0300..=U+036F. -/
def is_diacritic (c : Char) : Bool := decide (0x300 ≤ c.toNat ∧ c.toNat ≤ 0x36F)

/-- One iteration of the `for ch in word.nfkc()` loop body of `make_lowercase`
(utils.rs lines 39-49): the accumulator is (buf, need_stem). -/
def mlStep (toLower : Char → List Char) (acc : List Char × Bool) (ch : Char) :
    List Char × Bool :=
  if is_diacritic ch then acc
  else if rust_is_ascii ch then (acc.1 ++ [to_ascii_lowercase ch], acc.2)
  else (acc.1 ++ toLower ch, false)

/-- utils.rs lines 36-55: canonicalize `word` (via the caller-supplied `nfkc`
stream), dropping diacritics, ASCII-lowercasing ASCII characters and fully
lowercasing the rest via `toLower` (Rust `char::to_lowercase`); the returned
flag is the stem-eligibility bit, forced to false when the byte length of the
result is at most 1. -/
def make_lowercase (nfkc : List Char → List Char) (toLower : Char → List Char)
    (word : List Char) : List Char × Bool :=
  let p := (nfkc word).foldl (mlStep toLower) ([], true)
  (p.1, if strByteLen p.1 ≤ 1 then false else p.2)

/-- The per-character contribution of the `make_lowercase` loop, used to state
what the loop appends for each character of the decomposed stream. -/
def mlPieces (toLower : Char → List Char) : List Char → List Char
  | [] => []
  | c :: cs =>
    (if is_diacritic c then []
     else if rust_is_ascii c then [to_ascii_lowercase c]
     else toLower c) ++ mlPieces toLower cs

/-! ## The external collaborators, as parameters -/

/-- The opaque external functions the jieba tokenizer composes:
`cut` is jieba-rs `Jieba::cut(text, true)` (returns the word spans in order;
its documented invariant is that the words concatenate to the input);
`nfkc` is `unicode_normalization`'s NFKC char stream; `toLower` is Rust
`char::to_lowercase`; `stem` is the snowball English stemmer; `stopword` is
membership in the crate-level `STOPWORD` set (defined outside
src/src/tokenizer/, hence abstract here — no theorem below depends on its
contents). -/
structure ExternalFns where
  cut : List Char → List (List Char)
  nfkc : List Char → List Char
  toLower : Char → List Char
  stem : List Char → List Char
  stopword : List Char → Bool

/-! ## The jieba tokenizer (jieba_tokenizer.rs) -/

/-- jieba_tokenizer.rs lines 15-18: per-instance configuration. -/
structure JiebaTokenizer where
  enable_stopword : Bool
deriving DecidableEq

/-- jieba_tokenizer.rs lines 20-26: `Default` sets `enable_stopword = true`. -/
def JiebaTokenizer.defaultCfg : JiebaTokenizer := ⟨true⟩

/-- jieba_tokenizer.rs lines 30-32. -/
def JiebaTokenizer.disable_stopword (t : JiebaTokenizer) : JiebaTokenizer :=
  { t with enable_stopword := false }

/-! ## rusqlite error values and the tokenize result -/

/-- The shape of `rusqlite::Error` the adapter distinguishes: a structured
`SqliteFailure` carrying an extended code, or anything else. -/
inductive RusqliteError where
  | sqliteFailure (extendedCode : Int)
  | other
deriving DecidableEq

/-- jieba_tokenizer.rs lines 42-50: `JiebaTokenizer::new` starts from the
default and disables the stopword filter when any argument equals
"disable_stopword"; it never fails. -/
def JiebaTokenizer.new (args : List (List Char)) : Except RusqliteError JiebaTokenizer :=
  .ok (args.foldl
    (fun t a => if a = "disable_stopword".toList then t.disable_stopword else t)
    JiebaTokenizer.defaultCfg)

/-- One call of the `push_token` callback: emitted bytes (as the chars of the
pushed string), the byte range into the text given to `tokenize`, and the
colocated flag. -/
structure Emission where
  tok : List Char
  start : Nat
  stop : Nat
  colocated : Bool
deriving DecidableEq

/-- jieba_tokenizer.rs lines 69-84, the per-word decision: drop
space/control/punctuation-only words; normalize and lowercase; drop stopwords
when the filter is enabled; stem when eligible.  `none` means the word is
dropped, `some tok` the pushed bytes. -/
def normalizeWord (E : ExternalFns) (en : Bool) (w : List Char) : Option (List Char) :=
  if is_space_or_ascii_punctuation_str w then none
  else
    let p := make_lowercase E.nfkc E.toLower w
    if en && E.stopword p.1 then none
    else if p.2 then some (E.stem p.1) else some p.1

/-- jieba_tokenizer.rs lines 63-85, the word loop: a running byte offset is
advanced by the byte length of every word; each non-dropped word is pushed
with its range and colocated = false. -/
def processWords (E : ExternalFns) (en : Bool) : Nat → List (List Char) → List Emission
  | _, [] => []
  | i, w :: ws =>
    match normalizeWord E en w with
    | none => processWords E en (i + strByteLen w) ws
    | some tok =>
      { tok := tok, start := i, stop := i + strByteLen w, colocated := false } ::
        processWords E en (i + strByteLen w) ws

/-- The ranges of the words the loop of `tokenize` drops (the `continue`
branches), with the same running byte offset as `processWords`. -/
def droppedSpans (E : ExternalFns) (en : Bool) : Nat → List (List Char) → List (Nat × Nat)
  | _, [] => []
  | i, w :: ws =>
    match normalizeWord E en w with
    | none => (i, i + strByteLen w) :: droppedSpans E en (i + strByteLen w) ws
    | some _ => droppedSpans E en (i + strByteLen w) ws

/-- The byte spans of all words, in order, from a given starting offset. -/
def wordSpans : Nat → List (List Char) → List (Nat × Nat)
  | _, [] => []
  | i, w :: ws => (i, i + strByteLen w) :: wordSpans (i + strByteLen w) ws

/-! ## Reason flags (mod.rs lines 25-70) -/

/-- mod.rs lines 27-37. -/
inductive TokenizeReason where
  | Document
  | Query (pfx : Bool)
  | Aux
deriving DecidableEq

/-- mod.rs lines 39-42. -/
inductive IntoTokenizeReasonError where
  | UnrecognizedValue (flag : Int)
deriving DecidableEq

/-- mod.rs lines 44-52: the Display message for the decode error. -/
def reasonErrMsg : IntoTokenizeReasonError → String
  | .UnrecognizedValue flag => "Unrecognized flags passed to xTokenize: " ++ toString flag

/-- mod.rs lines 56-70: `TryFrom<c_int> for TokenizeReason`. -/
def TokenizeReason.try_from (value : Int) : Except IntoTokenizeReasonError TokenizeReason :=
  if value = FTS5_TOKENIZE_DOCUMENT then .ok .Document
  else if value = FTS5_TOKENIZE_QUERY then .ok (.Query false)
  else if value = FTS5_TOKENIZE_QUERY_PREFIX then .ok (.Query true)
  else if value = FTS5_TOKENIZE_AUX then .ok .Aux
  else .error (.UnrecognizedValue value)

/-- The flag value the host passes for each recognized reason (inverse of the
decode table). -/
def reasonToFlag : TokenizeReason → Int
  | .Document => FTS5_TOKENIZE_DOCUMENT
  | .Query false => FTS5_TOKENIZE_QUERY
  | .Query true => FTS5_TOKENIZE_QUERY_PREFIX
  | .Aux => FTS5_TOKENIZE_AUX

/-- jieba_tokenizer.rs lines 52-87: `JiebaTokenizer::tokenize`.  The `&mut self`
receiver is threaded explicitly (the source never assigns to it); the reason
argument is the `_reason` parameter; the returned list records every
`push_token` call in order (the callback itself never failing). -/
def JiebaTokenizer.tokenize (E : ExternalFns) (self : JiebaTokenizer)
    (_reason : TokenizeReason) (text : List Nat) : JiebaTokenizer × List Emission :=
  (self, processWords E self.enable_stopword 0 (E.cut (utf8LossyDecode text)))

/-! ## The C-boundary adapter (mod.rs lines 103-244)

The entry points receive raw pointers and callbacks from the host; the
embedding abstracts the marshalled values.  What `catch_unwind` observes of
the wrapped body is a `CaughtResult`: the body returned `Ok`, returned an
error, or panicked with a message. -/

/-- Outcome of the `catch_unwind`-wrapped body of an entry point. -/
inductive CaughtResult (α : Type) where
  | ok (a : α)
  | err (e : RusqliteError)
  | panicked (msg : String)

/-- What an `unsafe extern "C"` entry point does, as seen by the host:
either it returns a status code (having possibly logged diagnostics), or a
panic escapes it across the C boundary.  `invokedTokenizer` records whether
the variant's `tokenize` body ran. -/
inductive EntryOutcome where
  | returned (status : Int) (logs : List String) (invokedTokenizer : Bool)
  | panicEscaped (msg : String)
deriving DecidableEq

/-- mod.rs lines 103-134: `x_create`.  Argument marshalling cannot panic; the
constructor call is wrapped in `catch_unwind`; `Ok` stores the boxed instance
and returns SQLITE_OK, a structured `SqliteFailure` propagates its extended
code, any other error becomes SQLITE_ERROR, and a panic is logged (naming the
tokenizer type) and becomes SQLITE_ERROR.  Returns (status, logs). -/
def x_create {α : Type} (tName : String) (res : CaughtResult α) : Int × List String :=
  match res with
  | .ok _ => (SQLITE_OK, [])
  | .err (.sqliteFailure c) => (c, [])
  | .err .other => (SQLITE_ERROR, [])
  | .panicked m => (SQLITE_ERROR, ["<" ++ tName ++ " as Tokenizer>::new panic: " ++ m])

/-- mod.rs lines 136-148: `x_delete` reclaims the box and runs `drop` inside
`catch_unwind`; it always returns (result: the logs), a drop panic being
logged with the type name. -/
def x_delete (tName : String) (dropPanicMsg : Option String) : List String :=
  match dropPanicMsg with
  | some m => [tName ++ "::drop panic: " ++ m]
  | none => []

/-- mod.rs lines 150-162: `x_destroy`, identical shape for the global data. -/
def x_destroy (gName : String) (dropPanicMsg : Option String) : List String :=
  match dropPanicMsg with
  | some m => [gName ++ "::drop panic: " ++ m]
  | none => []

/-- mod.rs lines 165-234: `x_tokenize`.  In source order: decode the reason
flag (logging and returning SQLITE_ERROR on an unrecognized value, before
anything else); build the data slice; `push_token.expect(...)` — which panics
OUTSIDE the `catch_unwind` when the host passed a null callback; then run the
tokenizer body under `catch_unwind` and translate its result exactly as
`x_create` does. -/
def x_tokenize (tName : String) (flag : Int) (pushTokenSome : Bool)
    (body : TokenizeReason → CaughtResult Unit) : EntryOutcome :=
  match TokenizeReason.try_from flag with
  | .error e => .returned SQLITE_ERROR [reasonErrMsg e] false
  | .ok reason =>
    if pushTokenSome then
      match body reason with
      | .ok _ => .returned SQLITE_OK [] true
      | .err (.sqliteFailure c) => .returned c [] true
      | .err .other => .returned SQLITE_ERROR [] true
      | .panicked m =>
        .returned SQLITE_ERROR ["<" ++ tName ++ " as Tokenizer>::tokenize panic: " ++ m] true
    else .panicEscaped "No provide push token function"

/-- mod.rs lines 194-198: the range assertion of the wrapped `push_token`
closure — every emission is forwarded to the host only if both ends of its
range lie within the data length (otherwise the closure panics). -/
def wrapperAccepts (dataLen : Nat) (e : Emission) : Bool :=
  decide (e.start ≤ dataLen ∧ e.stop ≤ dataLen)

/-! ## Registration (mod.rs lines 246-351) -/

/-- mod.rs lines 246-253. -/
inductive RegisterTokenizerError where
  | SelectFts5Failed
  | Fts5ApiNul
  | Fts5ApiVersionTooLow
  | Fts5xCreateTokenizerV2Nul
  | Fts5xCreateTokenizerFailed (rc : Int)
deriving DecidableEq

/-- The fts5_api capability object as the registration code reads it:
its version field, and the optional `xCreateTokenizer_v2` installer, modelled
by the status code the host's installer returns when invoked. -/
structure Fts5Api where
  iVersion : Int
  xCreateTokenizer_v2 : Option Int

/-- The host connection state `register_tokenizer` interacts with:
whether `sqlite3_prepare_v3` of "SELECT fts5(?1)" succeeds, and the
`fts5_api` pointer the statement binds (none = null). -/
structure HostEnv where
  prepareOk : Bool
  api : Option Fts5Api

/-- mod.rs lines 283-317: `get_fts5_api` — `SelectFts5Failed` when the
statement cannot be prepared, `Fts5ApiNul` when the bound pointer stays
null. -/
def get_fts5_api (env : HostEnv) : Except RegisterTokenizerError Fts5Api :=
  if !env.prepareOk then .error .SelectFts5Failed
  else
    match env.api with
    | none => .error .Fts5ApiNul
    | some a => .ok a

/-- mod.rs lines 320-351: `register_tokenizer` — gets the api, rejects a
version below FTS5_API_VERSION, rejects a missing `xCreateTokenizer_v2`,
invokes the installer and fails with its code unless it returns SQLITE_OK. -/
def register_tokenizer (env : HostEnv) : Except RegisterTokenizerError Unit :=
  match get_fts5_api env with
  | .error e => .error e
  | .ok api =>
    if api.iVersion < FTS5_API_VERSION then .error .Fts5ApiVersionTooLow
    else
      match api.xCreateTokenizer_v2 with
      | none => .error .Fts5xCreateTokenizerV2Nul
      | some rc =>
        if rc ≠ SQLITE_OK then .error (.Fts5xCreateTokenizerFailed rc) else .ok ()

/-! ## Small helper facts -/

/-- Concatenation of a list of words (`Vec<&str>` joined back). -/
def concatAll : List (List Char) → List Char
  | [] => []
  | w :: ws => w ++ concatAll ws

/-- The byte slice `bs[s..e]`. -/
def bytesAt (bs : List Nat) (s e : Nat) : List Nat := (bs.drop s).take (e - s)

theorem char_isValid (c : Char) :
    c.toNat < 0xD800 ∨ (0xE000 ≤ c.toNat ∧ c.toNat < 0x110000) := c.valid

theorem char_toNat_ofNat {n : Nat} (h : Nat.isValidChar n) : (Char.ofNat n).toNat = n := by
  unfold Char.ofNat
  rw [dif_pos h]
  rfl

theorem utf8CharLen_pos (c : Char) : 0 < utf8CharLen c := by
  unfold utf8CharLen
  split_ifs <;> omega

theorem strByteLen_append (a b : List Char) :
    strByteLen (a ++ b) = strByteLen a + strByteLen b := by
  induction a with
  | nil => simp [strByteLen]
  | cons c cs ih => simp [strByteLen, ih]; omega

theorem strByteLen_pos {w : List Char} (h : w ≠ []) : 0 < strByteLen w := by
  cases w with
  | nil => exact absurd rfl h
  | cons c cs =>
    have := utf8CharLen_pos c
    simp [strByteLen]
    omega

theorem encodeChar_length (c : Char) : (encodeChar c).length = utf8CharLen c := by
  unfold encodeChar utf8CharLen
  split_ifs <;> rfl

theorem utf8Encode_append (a b : List Char) :
    utf8Encode (a ++ b) = utf8Encode a ++ utf8Encode b := by
  induction a with
  | nil => simp [utf8Encode]
  | cons c cs ih => simp [utf8Encode, ih]

theorem utf8Encode_length (s : List Char) : (utf8Encode s).length = strByteLen s := by
  induction s with
  | nil => rfl
  | cons c cs ih => simp [utf8Encode, strByteLen, encodeChar_length, ih]

theorem concatAll_append (a b : List (List Char)) :
    concatAll (a ++ b) = concatAll a ++ concatAll b := by
  induction a with
  | nil => rfl
  | cons w ws ih => simp [concatAll, ih]

set_option maxHeartbeats 2000000 in
/-- Decoding one UTF-8-encoded scalar consumes exactly its encoding: the
decoder's valid branches invert `encodeChar`. -/
theorem lossyGo_encodeChar (fuel : Nat) (c : Char) (bs : List Nat) :
    lossyGo (fuel + 1) (encodeChar c ++ bs) = c :: lossyGo fuel bs := by
  have hval : Nat.isValidChar c.toNat := c.valid
  have hv : c.toNat < 0xD800 ∨ (0xE000 ≤ c.toNat ∧ c.toNat < 0x110000) := hval
  by_cases h1 : c.toNat < 0x80
  · have he : encodeChar c = [c.toNat] := by rw [encodeChar, if_pos h1]
    rw [he, List.singleton_append]
    simp only [lossyGo]
    have hs : lossyStep c.toNat bs = (Char.ofNat c.toNat, 1) := by
      unfold lossyStep
      rw [if_pos (by omega : c.toNat ≤ 0x7F)]
    rw [hs]
    simp [Char.ofNat_toNat]
  · by_cases h2 : c.toNat < 0x800
    · have he : encodeChar c = [0xC0 + c.toNat / 64, 0x80 + c.toNat % 64] := by
        rw [encodeChar, if_neg h1, if_pos h2]
      rw [he, List.cons_append, List.singleton_append]
      simp only [lossyGo]
      have hs : lossyStep (0xC0 + c.toNat / 64) ((0x80 + c.toNat % 64) :: bs) = (c, 2) := by
        simp only [lossyStep, contByte, Bool.and_eq_true, decide_eq_true_eq]
        split_ifs <;> try omega
        have harg : (0xC0 + c.toNat / 64 - 0xC0) * 64 + (0x80 + c.toNat % 64 - 0x80)
            = c.toNat := by omega
        rw [harg, Char.ofNat_toNat]
      rw [hs]
      simp
    · by_cases h3 : c.toNat < 0x10000
      · have he : encodeChar c =
            [0xE0 + c.toNat / 4096, 0x80 + c.toNat / 64 % 64, 0x80 + c.toNat % 64] := by
          rw [encodeChar, if_neg h1, if_neg h2, if_pos h3]
        rw [he, List.cons_append, List.cons_append, List.singleton_append]
        simp only [lossyGo]
        have hs : lossyStep (0xE0 + c.toNat / 4096)
            ((0x80 + c.toNat / 64 % 64) :: (0x80 + c.toNat % 64) :: bs) = (c, 3) := by
          simp only [lossyStep, contByte, Bool.and_eq_true, decide_eq_true_eq]
          split_ifs <;> try omega
          all_goals
            rw [show (0xE0 + c.toNat / 4096 - 0xE0) * 4096 +
                (0x80 + c.toNat / 64 % 64 - 0x80) * 64 + (0x80 + c.toNat % 64 - 0x80)
                = c.toNat from by omega, Char.ofNat_toNat]
        rw [hs]
        simp
      · have he : encodeChar c =
            [0xF0 + c.toNat / 262144, 0x80 + c.toNat / 4096 % 64,
              0x80 + c.toNat / 64 % 64, 0x80 + c.toNat % 64] := by
          rw [encodeChar, if_neg h1, if_neg h2, if_neg h3]
        rw [he, List.cons_append, List.cons_append, List.cons_append, List.singleton_append]
        simp only [lossyGo]
        have hs : lossyStep (0xF0 + c.toNat / 262144)
            ((0x80 + c.toNat / 4096 % 64) :: (0x80 + c.toNat / 64 % 64) ::
              (0x80 + c.toNat % 64) :: bs) = (c, 4) := by
          simp only [lossyStep, contByte, Bool.and_eq_true, decide_eq_true_eq]
          split_ifs <;> try omega
          all_goals
            rw [show (0xF0 + c.toNat / 262144 - 0xF0) * 262144 +
                (0x80 + c.toNat / 4096 % 64 - 0x80) * 4096 +
                (0x80 + c.toNat / 64 % 64 - 0x80) * 64 +
                (0x80 + c.toNat % 64 - 0x80) = c.toNat from by omega, Char.ofNat_toNat]
        rw [hs]
        simp

theorem charCount_le_strByteLen (cs : List Char) : cs.length ≤ strByteLen cs := by
  induction cs with
  | nil => simp [strByteLen]
  | cons c cs ih =>
    have := utf8CharLen_pos c
    simp [strByteLen]
    omega

theorem lossyGo_encode (cs : List Char) :
    ∀ fuel, cs.length ≤ fuel → lossyGo fuel (utf8Encode cs) = cs := by
  induction cs with
  | nil =>
    intro fuel _
    cases fuel <;> rfl
  | cons c cs ih =>
    intro fuel hf
    cases fuel with
    | zero => simp at hf
    | succ f =>
      show lossyGo (f + 1) (encodeChar c ++ utf8Encode cs) = c :: cs
      rw [lossyGo_encodeChar]
      have hcs : cs.length ≤ f := by simp at hf; omega
      rw [ih f hcs]

/-- Round trip: Rust's lossy decoding is the identity on valid UTF-8, i.e. on
the encoding of any string. -/
theorem utf8LossyDecode_encode (cs : List Char) : utf8LossyDecode (utf8Encode cs) = cs := by
  unfold utf8LossyDecode
  apply lossyGo_encode
  rw [utf8Encode_length]
  exact charCount_le_strByteLen cs

/-! ## Structure of the word loop -/

/-- A word the stopword-filtering run emits is emitted identically by the
unfiltered run: only the stopword branch distinguishes them. -/
theorem normalizeWord_false_of_true {E : ExternalFns} {w : List Char} {t : List Char}
    (h : normalizeWord E true w = some t) : normalizeWord E false w = some t := by
  unfold normalizeWord at h ⊢
  split_ifs at h ⊢
  all_goals simp_all

/-- The filtered emission list is a sublist of the unfiltered one. -/
theorem processWords_sublist (E : ExternalFns) :
    ∀ (ws : List (List Char)) (i : Nat),
      List.Sublist (processWords E true i ws) (processWords E false i ws) := by
  intro ws
  induction ws with
  | nil => intro i; simp [processWords]
  | cons w ws ih =>
    intro i
    simp only [processWords]
    cases ht : normalizeWord E true w with
    | some t =>
      rw [normalizeWord_false_of_true ht]
      exact List.Sublist.cons₂ _ (ih _)
    | none =>
      cases hf : normalizeWord E false w with
      | none => exact ih _
      | some t => exact List.Sublist.cons _ (ih _)

/-- Every emission of the word loop comes from one word of the list, its range
being the byte span of that word at its cumulative offset, and its bytes being
exactly what `normalizeWord` yields on that word. -/
theorem processWords_mem (E : ExternalFns) (en : Bool) :
    ∀ (ws : List (List Char)) (i : Nat) (e : Emission), e ∈ processWords E en i ws →
      ∃ pre w post, ws = pre ++ w :: post ∧
        e.start = i + strByteLen (concatAll pre) ∧
        e.stop = e.start + strByteLen w ∧
        normalizeWord E en w = some e.tok ∧ e.colocated = false := by
  intro ws
  induction ws with
  | nil => intro i e h; simp [processWords] at h
  | cons w ws ih =>
    intro i e h
    simp only [processWords] at h
    cases hn : normalizeWord E en w with
    | none =>
      rw [hn] at h
      obtain ⟨pre, w', post, h1, h2, h3, h4, h5⟩ := ih (i + strByteLen w) e h
      refine ⟨w :: pre, w', post, by simp [h1], ?_, h3, h4, h5⟩
      simp only [concatAll, strByteLen_append, h2]
      omega
    | some tok =>
      rw [hn] at h
      rcases List.mem_cons.mp h with he | h
      · subst he
        exact ⟨[], w, ws, rfl, by simp [concatAll, strByteLen], rfl, hn, rfl⟩
      · obtain ⟨pre, w', post, h1, h2, h3, h4, h5⟩ := ih (i + strByteLen w) e h
        refine ⟨w :: pre, w', post, by simp [h1], ?_, h3, h4, h5⟩
        simp only [concatAll, strByteLen_append, h2]
        omega

/-- The byte lengths of the emitted spans and of the dropped spans sum to the
byte length of the concatenation of all words. -/
theorem processWords_dropped_sum (E : ExternalFns) (en : Bool) :
    ∀ (ws : List (List Char)) (i : Nat),
      ((processWords E en i ws).map (fun e => e.stop - e.start)).sum +
        ((droppedSpans E en i ws).map (fun p => p.2 - p.1)).sum =
        strByteLen (concatAll ws) := by
  intro ws
  induction ws with
  | nil => intro i; simp [processWords, droppedSpans, concatAll, strByteLen]
  | cons w ws ih =>
    intro i
    simp only [processWords, droppedSpans, concatAll, strByteLen_append]
    cases hn : normalizeWord E en w with
    | none =>
      simp only [List.map_cons, List.sum_cons]
      have := ih (i + strByteLen w)
      omega
    | some tok =>
      simp only [List.map_cons, List.sum_cons]
      have := ih (i + strByteLen w)
      omega

/-- The first word span starts at the running offset. -/
theorem wordSpans_head_start :
    ∀ (ws : List (List Char)) (i : Nat) (p : Nat × Nat),
      (wordSpans i ws).head? = some p → p.1 = i := by
  intro ws i p h
  cases ws with
  | nil => simp [wordSpans] at h
  | cons w ws =>
    simp [wordSpans] at h
    rw [← h]

/-- Consecutive word spans abut: each span ends where the next begins. -/
theorem wordSpans_chain (ws : List (List Char)) :
    ∀ i, List.Chain' (fun a b : Nat × Nat => a.2 ≤ b.1) (wordSpans i ws) := by
  induction ws with
  | nil => intro i; simp [wordSpans]
  | cons w ws ih =>
    intro i
    simp only [wordSpans]
    rw [List.chain'_cons']
    refine ⟨?_, ih _⟩
    intro y hy
    rw [wordSpans_head_start ws _ y hy]

/-- With non-empty words, every span is non-degenerate (start strictly below
stop). -/
theorem wordSpans_pos {ws : List (List Char)} (hne : ∀ w ∈ ws, w ≠ []) :
    ∀ i, ∀ p ∈ wordSpans i ws, p.1 < p.2 := by
  induction ws with
  | nil => intro i p h; simp [wordSpans] at h
  | cons w ws ih =>
    intro i p h
    simp only [wordSpans, List.mem_cons] at h
    rcases h with h | h
    · subst h
      have := strByteLen_pos (hne w (by simp))
      simp
      omega
    · exact ih (fun x hx => hne x (by simp [hx])) _ p h

/-! ## Structure of the `make_lowercase` fold -/

/-- The buffer accumulated by the fold is the concatenation of the
per-character pieces: nothing for a diacritic, the ASCII-lowercased character
for an ASCII character, the full lowercase expansion otherwise. -/
theorem mlFold_fst (toLower : Char → List Char) :
    ∀ (l : List Char) (acc : List Char) (ns : Bool),
      (l.foldl (mlStep toLower) (acc, ns)).1 = acc ++ mlPieces toLower l := by
  intro l
  induction l with
  | nil => intro acc ns; simp [mlPieces]
  | cons c cs ih =>
    intro acc ns
    by_cases hd : is_diacritic c = true
    · simp [mlStep, mlPieces, hd, ih]
    · by_cases ha : rust_is_ascii c = true
      · simp [mlStep, mlPieces, hd, ha, ih]
      · simp [mlStep, mlPieces, hd, ha, ih]

/-- The stem-eligibility bit of the fold: true iff it started true and every
character of the stream is a diacritic or ASCII. -/
theorem mlFold_snd (toLower : Char → List Char) :
    ∀ (l : List Char) (acc : List Char) (ns : Bool),
      (l.foldl (mlStep toLower) (acc, ns)).2 =
        (ns && l.all (fun c => is_diacritic c || rust_is_ascii c)) := by
  intro l
  induction l with
  | nil => intro acc ns; simp
  | cons c cs ih =>
    intro acc ns
    simp only [List.foldl_cons, mlStep, List.all_cons]
    by_cases hd : is_diacritic c = true
    · rw [if_pos hd, ih]
      simp [hd]
    · by_cases ha : rust_is_ascii c = true
      · rw [if_neg hd, if_pos ha, ih]
        simp [hd, ha]
      · rw [if_neg hd, if_neg ha, ih]
        simp [hd, ha]

/-- Filtering the diacritics out of the stream leaves the pieces unchanged:
the pass itself drops them. -/
theorem mlPieces_filter (toLower : Char → List Char) (l : List Char) :
    mlPieces toLower (l.filter (fun c => !is_diacritic c)) = mlPieces toLower l := by
  induction l with
  | nil => rfl
  | cons c cs ih =>
    by_cases hd : is_diacritic c = true
    · simp [List.filter_cons, hd, mlPieces, ih]
    · simp [List.filter_cons, hd, mlPieces, ih]

theorem to_ascii_lowercase_ascii {c : Char} (h : rust_is_ascii c = true) :
    rust_is_ascii (to_ascii_lowercase c) = true := by
  have hv : c.toNat ≤ 0x7F := by simpa [rust_is_ascii] using h
  unfold to_ascii_lowercase
  by_cases hr : 65 ≤ c.toNat ∧ c.toNat ≤ 90
  · rw [if_pos hr]
    have : (Char.ofNat (c.toNat + 32)).toNat = c.toNat + 32 :=
      char_toNat_ofNat (Or.inl (by omega))
    simp [rust_is_ascii, this]
    omega
  · rw [if_neg hr]
    exact h

/-- If every character of the stream is a diacritic or ASCII, the pieces are
all ASCII. -/
theorem mlPieces_all_ascii (toLower : Char → List Char) (l : List Char)
    (h : ∀ c ∈ l, (is_diacritic c || rust_is_ascii c) = true) :
    (mlPieces toLower l).all rust_is_ascii = true := by
  induction l with
  | nil => rfl
  | cons c cs ih =>
    have hc := h c (by simp)
    have hcs : ∀ c ∈ cs, (is_diacritic c || rust_is_ascii c) = true :=
      fun x hx => h x (by simp [hx])
    simp only [mlPieces, List.all_append]
    rw [ih hcs]
    by_cases hd : is_diacritic c = true
    · simp [hd]
    · have ha : rust_is_ascii c = true := by
        rcases Bool.or_eq_true_iff.mp hc with h1 | h1
        · exact absurd h1 hd
        · exact h1
      simp [hd, ha, to_ascii_lowercase_ascii ha]

/-- The lowercase expansion of a non-diacritic non-ASCII character of the
stream is contained in the pieces. -/
theorem mlPieces_contains_toLower (toLower : Char → List Char) (l : List Char)
    {c : Char} (hmem : c ∈ l) (hd : is_diacritic c = false)
    (ha : rust_is_ascii c = false) :
    ∀ d ∈ toLower c, d ∈ mlPieces toLower l := by
  induction l with
  | nil => simp at hmem
  | cons x xs ih =>
    intro d hdd
    simp only [mlPieces, List.mem_append]
    rcases List.mem_cons.mp hmem with he | hm
    · subst he
      left
      simp [hd, ha, hdd]
    · right
      exact ih hm d hdd

/-- On an all-ASCII string the byte length is the character count. -/
theorem strByteLen_ascii (l : List Char) (h : l.all rust_is_ascii = true) :
    strByteLen l = l.length := by
  induction l with
  | nil => rfl
  | cons c cs ih =>
    simp only [List.all_cons, Bool.and_eq_true] at h
    have hc : c.toNat ≤ 0x7F := by simpa [rust_is_ascii] using h.1
    simp only [strByteLen, List.length_cons, ih h.2]
    unfold utf8CharLen
    rw [if_pos (by omega)]
    omega

/-- The early-break loop of `is_space_or_ascii_punctuation_str` is the
universal classification over the characters. -/
theorem is_space_str_iff (w : List Char) :
    is_space_or_ascii_punctuation_str w = true ↔
      ∀ c ∈ w, (rust_is_whitespace c || rust_is_control c ||
        rust_is_ascii_punctuation c) = true := by
  induction w with
  | nil => simp [is_space_or_ascii_punctuation_str]
  | cons c cs ih =>
    simp only [is_space_or_ascii_punctuation_str]
    by_cases h : (!rust_is_whitespace c && !rust_is_control c &&
        !rust_is_ascii_punctuation c) = true
    · rw [if_pos h]
      simp only [Bool.and_eq_true, Bool.not_eq_true'] at h
      constructor
      · intro hf
        exact absurd hf (by simp)
      · intro hall
        have hcl := hall c (by simp)
        simp [h.1.1, h.1.2, h.2] at hcl
    · rw [if_neg h]
      have hc : (rust_is_whitespace c || rust_is_control c ||
          rust_is_ascii_punctuation c) = true := by
        revert h
        cases rust_is_whitespace c <;> cases rust_is_control c <;>
          cases rust_is_ascii_punctuation c <;> simp
      rw [ih]
      constructor
      · intro hall d hd
        rcases List.mem_cons.mp hd with he | hm
        · subst he
          exact hc
        · exact hall d hm
      · intro hall d hd
        exact hall d (by simp [hd])

/-- Decoding the flag of a recognized reason recovers the reason. -/
theorem try_from_reasonToFlag (r : TokenizeReason) :
    TokenizeReason.try_from (reasonToFlag r) = .ok r := by
  cases r with
  | Document => rfl
  | Query p => cases p <;> rfl
  | Aux => rfl

/-! ## Claim theorems -/

/-- C1: the `catch_unwind`-guarded bodies of x_create / x_tokenize / x_delete /
x_destroy do convert panics into SQLITE_ERROR plus a diagnostic naming the
component — but the claim, as stated, fails: `x_tokenize` evaluates
`push_token.expect(...)` before entering `catch_unwind` (mod.rs line 188), so
a host call with a null `push_token` callback and a recognized reason flag
lets a panic cross the C boundary unconverted and unlogged, contradicting the
spec's taxonomy (missing required callback = logged decode failure) and its
fault-containment rule.  The first conjunct evaluates the model at that
failing input; the remaining conjuncts show the guarded paths do contain
panics. -/
theorem claim1_fault_containment_bug :
    x_tokenize "JiebaTokenizer" 4 false (fun _ => CaughtResult.ok ()) =
      EntryOutcome.panicEscaped "No provide push token function" ∧
    x_tokenize "JiebaTokenizer" 4 true (fun _ => CaughtResult.panicked "boom") =
      EntryOutcome.returned SQLITE_ERROR
        ["<JiebaTokenizer as Tokenizer>::tokenize panic: boom"] true ∧
    x_create "JiebaTokenizer" (CaughtResult.panicked "boom" : CaughtResult JiebaTokenizer) =
      (SQLITE_ERROR, ["<JiebaTokenizer as Tokenizer>::new panic: boom"]) ∧
    x_delete "JiebaTokenizer" (some "boom") = ["JiebaTokenizer::drop panic: boom"] ∧
    x_destroy "Global" (some "boom") = ["Global::drop panic: boom"] := by
  refine ⟨?_, ?_, ?_, ?_, ?_⟩ <;> rfl

/-- C2: the reason decode recognizes exactly the four flag values
(DOCUMENT ↦ Document, QUERY ↦ Query prefix:=false, QUERY|PREFIX ↦ Query
prefix:=true, AUX ↦ Aux); any other integer decodes to `UnrecognizedValue`,
and `x_tokenize` then logs the decode error and returns SQLITE_ERROR without
invoking the tokenizer (the outcome's `invokedTokenizer` field is false). -/
theorem claim2_reason_decode :
    TokenizeReason.try_from FTS5_TOKENIZE_DOCUMENT = .ok .Document ∧
    TokenizeReason.try_from FTS5_TOKENIZE_QUERY = .ok (.Query false) ∧
    TokenizeReason.try_from FTS5_TOKENIZE_QUERY_PREFIX = .ok (.Query true) ∧
    TokenizeReason.try_from FTS5_TOKENIZE_AUX = .ok .Aux ∧
    (∀ v : Int, v ≠ FTS5_TOKENIZE_DOCUMENT → v ≠ FTS5_TOKENIZE_QUERY →
      v ≠ FTS5_TOKENIZE_QUERY_PREFIX → v ≠ FTS5_TOKENIZE_AUX →
      TokenizeReason.try_from v = .error (.UnrecognizedValue v) ∧
      ∀ (t : String) (p : Bool) (body : TokenizeReason → CaughtResult Unit),
        x_tokenize t v p body =
          .returned SQLITE_ERROR [reasonErrMsg (.UnrecognizedValue v)] false) := by
  refine ⟨rfl, rfl, rfl, rfl, ?_⟩
  intro v h4 h1 h3 h8
  have hd : TokenizeReason.try_from v = .error (.UnrecognizedValue v) := by
    unfold TokenizeReason.try_from
    rw [if_neg h4, if_neg h1, if_neg h3, if_neg h8]
  refine ⟨hd, ?_⟩
  intro t p body
  unfold x_tokenize
  rw [hd]

/-- Witness for C2 at the concrete unrecognized flag 7. -/
theorem claim2_reason_decode_witness :
    TokenizeReason.try_from 7 = .error (.UnrecognizedValue 7) ∧
    x_tokenize "T" 7 true (fun _ => CaughtResult.ok ()) =
      .returned SQLITE_ERROR [reasonErrMsg (.UnrecognizedValue 7)] false := by
  have h := claim2_reason_decode.2.2.2.2 7 (by decide) (by decide) (by decide) (by decide)
  exact ⟨h.1, h.2 "T" true (fun _ => CaughtResult.ok ())⟩

/-- C5: result-to-status translation of x_create and x_tokenize: `Ok` becomes
SQLITE_OK, a structured `SqliteFailure` propagates its extended code verbatim,
every other error value becomes the generic SQLITE_ERROR. -/
theorem claim5_status_translation :
    ∀ {α : Type} (t : String) (a : α) (c : Int) (r : TokenizeReason),
      x_create t (CaughtResult.ok a) = (SQLITE_OK, []) ∧
      x_create t (CaughtResult.err (RusqliteError.sqliteFailure c) : CaughtResult α)
        = (c, []) ∧
      x_create t (CaughtResult.err RusqliteError.other : CaughtResult α)
        = (SQLITE_ERROR, []) ∧
      x_tokenize t (reasonToFlag r) true (fun _ => CaughtResult.ok ()) =
        .returned SQLITE_OK [] true ∧
      x_tokenize t (reasonToFlag r) true
          (fun _ => CaughtResult.err (RusqliteError.sqliteFailure c)) =
        .returned c [] true ∧
      x_tokenize t (reasonToFlag r) true (fun _ => CaughtResult.err RusqliteError.other) =
        .returned SQLITE_ERROR [] true := by
  intro α t a c r
  refine ⟨rfl, rfl, rfl, ?_, ?_, ?_⟩ <;>
    simp [x_tokenize, try_from_reasonToFlag]

/-- C10: `register_tokenizer` yields a distinct named error for each distinct
failure — `SelectFts5Failed` when the capability lookup statement fails,
`Fts5ApiNul` when the capability pointer is null, `Fts5ApiVersionTooLow` when
the version is below 3, `Fts5xCreateTokenizerV2Nul` when the installer
function is missing, `Fts5xCreateTokenizerFailed rc` carrying the host's
return code — and returns Ok exactly when the installer returns SQLITE_OK. -/
theorem claim10_register_errors (env : HostEnv) :
    (register_tokenizer env = .ok () ↔
      env.prepareOk = true ∧ ∃ a, env.api = some a ∧ FTS5_API_VERSION ≤ a.iVersion ∧
        a.xCreateTokenizer_v2 = some SQLITE_OK) ∧
    (register_tokenizer env = .error .SelectFts5Failed ↔ env.prepareOk = false) ∧
    (register_tokenizer env = .error .Fts5ApiNul ↔
      env.prepareOk = true ∧ env.api = none) ∧
    (register_tokenizer env = .error .Fts5ApiVersionTooLow ↔
      env.prepareOk = true ∧ ∃ a, env.api = some a ∧ a.iVersion < FTS5_API_VERSION) ∧
    (register_tokenizer env = .error .Fts5xCreateTokenizerV2Nul ↔
      env.prepareOk = true ∧ ∃ a, env.api = some a ∧ FTS5_API_VERSION ≤ a.iVersion ∧
        a.xCreateTokenizer_v2 = none) ∧
    (∀ rc : Int, register_tokenizer env = .error (.Fts5xCreateTokenizerFailed rc) ↔
      env.prepareOk = true ∧ rc ≠ SQLITE_OK ∧ ∃ a, env.api = some a ∧
        FTS5_API_VERSION ≤ a.iVersion ∧ a.xCreateTokenizer_v2 = some rc) := by
  obtain ⟨pOk, api⟩ := env
  cases pOk with
  | false => simp [register_tokenizer, get_fts5_api]
  | true =>
    cases api with
    | none => simp [register_tokenizer, get_fts5_api]
    | some a =>
      obtain ⟨iv, xc⟩ := a
      by_cases hv : iv < (3 : Int)
      · simp [register_tokenizer, get_fts5_api, FTS5_API_VERSION, SQLITE_OK, hv]
        try omega
      · cases xc with
        | none =>
          simp [register_tokenizer, get_fts5_api, FTS5_API_VERSION, SQLITE_OK, hv]
          try omega
        | some rc =>
          by_cases hrc : rc = (0 : Int)
          · subst hrc
            simp [register_tokenizer, get_fts5_api, FTS5_API_VERSION, SQLITE_OK, hv]
            refine ⟨by omega, ?_⟩
            intro rc h1 _
            omega
          · simp [register_tokenizer, get_fts5_api, FTS5_API_VERSION, SQLITE_OK, hv, hrc]
            try omega

/-- C7: `is_space_or_ascii_punctuation_str` is true exactly when every
character of the string is whitespace, a control character, or ASCII
punctuation; and the word loop of `JiebaTokenizer::tokenize` drops any such
word span — the span contributes no emission, the loop continuing at the next
offset. -/
theorem claim7_space_punct_dropped :
    (∀ w : List Char, is_space_or_ascii_punctuation_str w = true ↔
      ∀ c ∈ w, (rust_is_whitespace c || rust_is_control c ||
        rust_is_ascii_punctuation c) = true) ∧
    (∀ (E : ExternalFns) (en : Bool) (i : Nat) (w : List Char) (ws : List (List Char)),
      is_space_or_ascii_punctuation_str w = true →
      processWords E en i (w :: ws) = processWords E en (i + strByteLen w) ws) := by
  refine ⟨is_space_str_iff, ?_⟩
  intro E en i w ws h
  simp [processWords, normalizeWord, h]

/-- Witness for C7 at the single-space word. -/
theorem claim7_space_punct_dropped_witness :
    is_space_or_ascii_punctuation_str [' '] = true ∧
    processWords ⟨fun t => [t], id, fun c => [c], id, fun _ => false⟩ true 0 ([' '] :: []) =
      processWords ⟨fun t => [t], id, fun c => [c], id, fun _ => false⟩ true
        (0 + strByteLen [' ']) [] :=
  ⟨by decide,
    claim7_space_punct_dropped.2 ⟨fun t => [t], id, fun c => [c], id, fun _ => false⟩
      true 0 [' '] [] (by decide)⟩

/-- C9: `JiebaTokenizer::tokenize` is a pure function of the instance
configuration and the input bytes: for any two recognized reasons it returns
the identical emission sequence (bytes, ranges, colocated flags), and the
threaded `&mut self` configuration comes back unchanged. -/
theorem claim9_tokenize_pure :
    ∀ (E : ExternalFns) (self : JiebaTokenizer) (r1 r2 : TokenizeReason)
      (text : List Nat),
      JiebaTokenizer.tokenize E self r1 text = JiebaTokenizer.tokenize E self r2 text ∧
      (JiebaTokenizer.tokenize E self r1 text).1 = self :=
  fun _ _ _ _ _ => ⟨rfl, rfl⟩

/-- C8 (amended): for every input and every instantiation of the external
functions, the emission sequence with stopword filtering enabled is a sublist
of the sequence with filtering disabled (hence the disabled token set is a
superset — strict exactly when the filter removes at least one word, which
need not happen); `new` maps no arguments to the filtering-enabled
configuration and the "disable_stopword" argument to the disabled one. -/
theorem claim8_stopword_superset :
    (∀ (E : ExternalFns) (r : TokenizeReason) (text : List Nat),
      List.Sublist (JiebaTokenizer.tokenize E ⟨true⟩ r text).2
        (JiebaTokenizer.tokenize E ⟨false⟩ r text).2) ∧
    JiebaTokenizer.new [] = .ok ⟨true⟩ ∧
    JiebaTokenizer.new ["disable_stopword".toList] = .ok ⟨false⟩ := by
  refine ⟨?_, rfl, ?_⟩
  · intro E r text
    exact processWords_sublist E _ 0
  · simp [JiebaTokenizer.new, JiebaTokenizer.defaultCfg, JiebaTokenizer.disable_stopword]

/-- C8 counterexample: the claim's strictness fails.  On the one-byte input
[0x20] (a single space, which jieba segments to the single word " ", here
`cut` is any function with that behaviour) both configurations emit nothing,
so the stopword-disabled token set is NOT a strict superset of the enabled
one — they are equal. -/
theorem claim8_stopword_superset_cex :
    (JiebaTokenizer.tokenize
        ⟨fun t => [t], id, fun c => [c], id, fun w => w = "like".toList⟩
        ⟨false⟩ .Document [0x20]).2 =
      (JiebaTokenizer.tokenize
        ⟨fun t => [t], id, fun c => [c], id, fun w => w = "like".toList⟩
        ⟨true⟩ .Document [0x20]).2 ∧
    (JiebaTokenizer.tokenize
        ⟨fun t => [t], id, fun c => [c], id, fun w => w = "like".toList⟩
        ⟨false⟩ .Document [0x20]).2 = [] := by
  constructor <;> decide

/-- C6: `make_lowercase` folds the NFKC stream of the word, dropping the
combining diacritical marks U+0300..=U+036F in the same pass (filtering them
out of the stream changes nothing), appending the byte-wise ASCII lowercase of
each ASCII character and the full lowercase expansion of each non-ASCII one;
the returned stem-eligibility flag is true exactly when the result is
ASCII-only and longer than one code point, and a result of byte length at most
1 is never stem-eligible.  The hypothesis is the Unicode fact the claim needs
about `char::to_lowercase`: the lowercase expansion of a non-ASCII character
contains a non-ASCII character. -/
theorem claim6_make_lowercase (nfkc : List Char → List Char)
    (toLower : Char → List Char)
    (hl : ∀ c : Char, rust_is_ascii c = false → ∃ d ∈ toLower c, rust_is_ascii d = false)
    (w : List Char) :
    (make_lowercase nfkc toLower w).1 = mlPieces toLower (nfkc w) ∧
    (make_lowercase nfkc toLower w).1 =
      mlPieces toLower ((nfkc w).filter (fun c => !is_diacritic c)) ∧
    ((make_lowercase nfkc toLower w).2 = true ↔
      ((make_lowercase nfkc toLower w).1.all rust_is_ascii = true ∧
        1 < (make_lowercase nfkc toLower w).1.length)) ∧
    (strByteLen (make_lowercase nfkc toLower w).1 ≤ 1 →
      (make_lowercase nfkc toLower w).2 = false) := by
  have hbuf : (make_lowercase nfkc toLower w).1 = mlPieces toLower (nfkc w) := by
    simp [make_lowercase, mlFold_fst]
  have hflag : (make_lowercase nfkc toLower w).2 =
      if strByteLen (make_lowercase nfkc toLower w).1 ≤ 1 then false
      else ((nfkc w).all (fun c => is_diacritic c || rust_is_ascii c)) := by
    simp [make_lowercase, mlFold_snd]
  refine ⟨hbuf, by rw [hbuf, mlPieces_filter], ?_, ?_⟩
  · constructor
    · intro h
      rw [hflag] at h
      by_cases hb : strByteLen (make_lowercase nfkc toLower w).1 ≤ 1
      · rw [if_pos hb] at h
        exact absurd h (by simp)
      · rw [if_neg hb] at h
        have hall : ∀ c ∈ nfkc w, (is_diacritic c || rust_is_ascii c) = true :=
          List.all_eq_true.mp h
        have hascii : (make_lowercase nfkc toLower w).1.all rust_is_ascii = true := by
          rw [hbuf]
          exact mlPieces_all_ascii toLower (nfkc w) hall
        refine ⟨hascii, ?_⟩
        have hlen := strByteLen_ascii _ hascii
        omega
    · rintro ⟨hascii, hlen⟩
      rw [hflag]
      have hbl := strByteLen_ascii _ hascii
      rw [if_neg (by omega)]
      by_contra hne
      have hfalse : (nfkc w).all (fun c => is_diacritic c || rust_is_ascii c) = false :=
        Bool.eq_false_iff.mpr hne
      obtain ⟨c, hc, hcf⟩ := List.all_eq_false.mp hfalse
      have hcf2 : is_diacritic c = false ∧ rust_is_ascii c = false := by
        revert hcf
        cases is_diacritic c <;> cases rust_is_ascii c <;> simp
      obtain ⟨d, hd, hdna⟩ := hl c hcf2.2
      have hdin : d ∈ (make_lowercase nfkc toLower w).1 := by
        rw [hbuf]
        exact mlPieces_contains_toLower toLower (nfkc w) hc hcf2.1 hcf2.2 d hd
      have := List.all_eq_true.mp hascii d hdin
      rw [hdna] at this
      exact absurd this (by simp)
  · intro hb
    rw [hflag, if_pos hb]

/-- Witness for C6: concrete instantiation (identity NFKC, identity lowercase
expansion) on the word "Ab", with the concrete evaluation of the model. -/
theorem claim6_make_lowercase_witness :
    make_lowercase id (fun c => [c]) "Ab".toList = ("ab".toList, true) ∧
    ((make_lowercase id (fun c => [c]) "Ab".toList).1 =
        mlPieces (fun c => [c]) (id "Ab".toList) ∧
      (make_lowercase id (fun c => [c]) "Ab".toList).1 =
        mlPieces (fun c => [c]) ((id "Ab".toList).filter (fun c => !is_diacritic c)) ∧
      ((make_lowercase id (fun c => [c]) "Ab".toList).2 = true ↔
        ((make_lowercase id (fun c => [c]) "Ab".toList).1.all rust_is_ascii = true ∧
          1 < (make_lowercase id (fun c => [c]) "Ab".toList).1.length)) ∧
      (strByteLen (make_lowercase id (fun c => [c]) "Ab".toList).1 ≤ 1 →
        (make_lowercase id (fun c => [c]) "Ab".toList).2 = false)) :=
  ⟨by decide,
    claim6_make_lowercase id (fun c => [c])
      (fun c hc => ⟨c, List.mem_singleton.mpr rfl, hc⟩) "Ab".toList⟩

/-- Extracting the middle block of a concatenation by its byte offsets. -/
theorem bytesAt_middle (A B C : List Nat) :
    bytesAt (A ++ (B ++ C)) A.length (A.length + B.length) = B := by
  unfold bytesAt
  rw [List.drop_left]
  have h : A.length + B.length - A.length = B.length := by omega
  rw [h, List.take_left]

/-- C3 (amended): for every VALID-UTF-8 input (the encoding of a string `cs`)
and every emission the jieba tokenizer pushes through the adapter-wrapped
callback, the byte range satisfies 0 ≤ start ≤ stop ≤ input length, the
wrapper's range assertion accepts it, and the emitted bytes are determined by
the input bytes in [start, stop) alone: normalizing the word decoded from
exactly those bytes yields the emitted token.  (For invalid UTF-8 the ranges
are relative to the replacement-decoded text instead and can exceed the input
length — see the counterexample.) -/
theorem claim3_token_ranges (E : ExternalFns) (en : Bool) (r : TokenizeReason)
    (cs : List Char) (hconcat : concatAll (E.cut cs) = cs) :
    ∀ e ∈ (JiebaTokenizer.tokenize E ⟨en⟩ r (utf8Encode cs)).2,
      e.start ≤ e.stop ∧ e.stop ≤ (utf8Encode cs).length ∧
      wrapperAccepts (utf8Encode cs).length e = true ∧
      normalizeWord E en (utf8LossyDecode (bytesAt (utf8Encode cs) e.start e.stop)) =
        some e.tok := by
  intro e he
  have hdec : utf8LossyDecode (utf8Encode cs) = cs := utf8LossyDecode_encode cs
  have he' : e ∈ processWords E en 0 (E.cut cs) := by
    simpa [JiebaTokenizer.tokenize, hdec] using he
  obtain ⟨pre, w, post, hws, hstart, hstop, hnorm, _⟩ := processWords_mem E en _ 0 e he'
  have hcs : cs = concatAll pre ++ (w ++ concatAll post) := by
    rw [← hconcat, hws, concatAll_append]
    simp [concatAll]
  have hzero : e.start = strByteLen (concatAll pre) := by simpa using hstart
  have htot : strByteLen cs =
      strByteLen (concatAll pre) + (strByteLen w + strByteLen (concatAll post)) := by
    rw [hcs, strByteLen_append, strByteLen_append]
  have hlen : (utf8Encode cs).length = strByteLen cs := utf8Encode_length cs
  have hb : bytesAt (utf8Encode cs) e.start e.stop = utf8Encode w := by
    have henc : utf8Encode cs =
        utf8Encode (concatAll pre) ++ (utf8Encode w ++ utf8Encode (concatAll post)) := by
      rw [hcs, utf8Encode_append, utf8Encode_append]
    have h1 : e.start = (utf8Encode (concatAll pre)).length := by
      rw [utf8Encode_length]
      exact hzero
    have h2 : e.stop = (utf8Encode (concatAll pre)).length + (utf8Encode w).length := by
      rw [utf8Encode_length, utf8Encode_length]
      omega
    rw [henc, h1, h2, bytesAt_middle]
  refine ⟨by omega, by omega, ?_, ?_⟩
  · simp only [wrapperAccepts, decide_eq_true_eq]
    omega
  · rw [hb, utf8LossyDecode_encode]
    exact hnorm

/-- Witness for C3 on the valid one-byte input "a". -/
theorem claim3_token_ranges_witness :
    concatAll ((fun (t : List Char) => [t]) ['a']) = ['a'] ∧
    Emission.mk ['a'] 0 1 false ∈
      (JiebaTokenizer.tokenize ⟨fun t => [t], id, fun c => [c], id, fun _ => false⟩
        ⟨true⟩ .Document (utf8Encode ['a'])).2 ∧
    ((Emission.mk ['a'] 0 1 false).start ≤ (Emission.mk ['a'] 0 1 false).stop ∧
      (Emission.mk ['a'] 0 1 false).stop ≤ (utf8Encode ['a']).length ∧
      wrapperAccepts (utf8Encode ['a']).length (Emission.mk ['a'] 0 1 false) = true ∧
      normalizeWord ⟨fun t => [t], id, fun c => [c], id, fun _ => false⟩ true
        (utf8LossyDecode (bytesAt (utf8Encode ['a']) (Emission.mk ['a'] 0 1 false).start
          (Emission.mk ['a'] 0 1 false).stop)) =
        some (Emission.mk ['a'] 0 1 false).tok) :=
  ⟨by decide, by decide,
    claim3_token_ranges ⟨fun t => [t], id, fun c => [c], id, fun _ => false⟩ true
      .Document ['a'] (by decide) (Emission.mk ['a'] 0 1 false) (by decide)⟩

/-- C3 counterexample: on the invalid-UTF-8 one-byte input [0xFF] the
tokenizer pushes the replacement-character token with byte range [0, 3), which
exceeds the 1-byte input: ranges index the lossily decoded text, refuting the
claim for arbitrary byte sequences.  The wrapper's assertion then rejects the
range (the push panics inside the guard, so x_tokenize reports SQLITE_ERROR
rather than forwarding it).  The concrete `cut` is any segmentation returning
the single word for a one-character string, as jieba does. -/
theorem claim3_token_ranges_cex :
    (JiebaTokenizer.tokenize ⟨fun t => [t], id, fun c => [c], id, fun _ => false⟩
        ⟨true⟩ .Document [0xFF]).2 = [Emission.mk [repChar] 0 3 false] ∧
    ¬((Emission.mk [repChar] 0 3 false).stop ≤ ([0xFF] : List Nat).length) ∧
    wrapperAccepts ([0xFF] : List Nat).length (Emission.mk [repChar] 0 3 false)
      = false := by
  refine ⟨?_, ?_, ?_⟩ <;> decide

/-- C4 (amended): the word spans of one tokenize call are strictly increasing
and non-overlapping (for segmenters producing non-empty words), and the byte
lengths of the emitted spans plus the dropped spans sum exactly to the byte
length of the lossily decoded input text — which equals the input's byte
length whenever the input is valid UTF-8, but not in general (see the
counterexample). -/
theorem claim4_span_partition (E : ExternalFns) (en : Bool) (r : TokenizeReason)
    (text : List Nat)
    (hconcat : concatAll (E.cut (utf8LossyDecode text)) = utf8LossyDecode text) :
    (((JiebaTokenizer.tokenize E ⟨en⟩ r text).2.map (fun e => e.stop - e.start)).sum +
      ((droppedSpans E en 0 (E.cut (utf8LossyDecode text))).map
        (fun p => p.2 - p.1)).sum =
      strByteLen (utf8LossyDecode text)) ∧
    ((∀ w ∈ E.cut (utf8LossyDecode text), w ≠ []) →
      List.Chain' (fun a b : Nat × Nat => a.2 ≤ b.1)
        (wordSpans 0 (E.cut (utf8LossyDecode text))) ∧
      ∀ p ∈ wordSpans 0 (E.cut (utf8LossyDecode text)), p.1 < p.2) ∧
    (∀ cs : List Char, text = utf8Encode cs →
      strByteLen (utf8LossyDecode text) = text.length) := by
  refine ⟨?_, ?_, ?_⟩
  · have h := processWords_dropped_sum E en (E.cut (utf8LossyDecode text)) 0
    rw [hconcat] at h
    exact h
  · intro hne
    exact ⟨wordSpans_chain _ 0, wordSpans_pos hne 0⟩
  · intro cs hcs
    subst hcs
    rw [utf8LossyDecode_encode, utf8Encode_length]

/-- Witness for C4 on the valid two-byte input "ab". -/
theorem claim4_span_partition_witness :
    concatAll ((fun (t : List Char) => [t]) (utf8LossyDecode [0x61, 0x62])) =
      utf8LossyDecode [0x61, 0x62] ∧
    ((JiebaTokenizer.tokenize ⟨fun t => [t], id, fun c => [c], id, fun _ => false⟩
        ⟨true⟩ .Document [0x61, 0x62]).2.map (fun e => e.stop - e.start)).sum +
      ((droppedSpans ⟨fun t => [t], id, fun c => [c], id, fun _ => false⟩ true 0
        ((fun (t : List Char) => [t]) (utf8LossyDecode [0x61, 0x62]))).map
          (fun p => p.2 - p.1)).sum =
      strByteLen (utf8LossyDecode [0x61, 0x62]) :=
  ⟨by decide,
    (claim4_span_partition ⟨fun t => [t], id, fun c => [c], id, fun _ => false⟩ true
      .Document [0x61, 0x62] (by decide)).1⟩

/-- C4 counterexample: on the single invalid byte [0xFF] the spans cover the
replacement-decoded text "�" (3 bytes): emitted plus dropped span lengths
sum to 3, not to the input's byte length 1.  Any segmentation whose words
concatenate to the decoded text gives the same sum; the concrete `cut` returns
the whole text as one word, as jieba does for a single character. -/
theorem claim4_span_partition_cex :
    ((JiebaTokenizer.tokenize ⟨fun t => [t], id, fun c => [c], id, fun _ => false⟩
        ⟨true⟩ .Document [0xFF]).2.map (fun e => e.stop - e.start)).sum +
      ((droppedSpans ⟨fun t => [t], id, fun c => [c], id, fun _ => false⟩ true 0
        ((fun (t : List Char) => [t]) (utf8LossyDecode [0xFF]))).map
          (fun p => p.2 - p.1)).sum = 3 ∧
    ([0xFF] : List Nat).length = 1 ∧ (3 : Nat) ≠ 1 := by
  refine ⟨?_, ?_, ?_⟩ <;> decide
